import Mathlib

/-!
# The BICO binding layer and its result container

A shallow embedding of the sources of the `bico` extension module:

* `src/bico/datastructure/proxysolution.h`  : `CluE.ProxySolution`
* `src/bico/base/weightmodifier.h`          : `CluE.WeightModifier`
* `src/bico/base/weightedobject.h`          : `CluE.WeightedObject`
* `src/bico/point/pointweightmodifier.h`    : `CluE.PointWeightModifier`
* `src/bico/_core.cpp`                      : `BicoExternal`, `init`

Conventions.

* `std::vector<T>` is a `List T`; `operator[]` on a vector is an indexed read
  that needs the index to be in range.
* `unsigned int` is a `Nat` below `2 ^ 32`, `size_t` a `Nat` below `2 ^ 64`;
  arithmetic that can wrap carries its modulus explicitly.
* `double` is an arbitrary carrier `D`.  The sources never compute with
  doubles: they copy them, zero-initialise them (`Zero D`) and convert a
  `size_t` to one (`NatCast D`).
* A `throw` is the `error` side of `Except`; an access outside an array is a
  `MemoryFault`.
* `const double *` arguments are read-only memory seen from the pointer: a
  function from offsets to values.  Output buffers are lists whose length is
  the number of cells the caller allocated.
-/

namespace CluE

/-! ## Errors -/

/-- Error kinds that the specification names (section 7 of the specification). -/
inductive ErrorKind where
  | InvalidConfiguration
  | InvalidInput
  | OutOfRange
  deriving DecidableEq

/-- A value that leaves a function through a C++ `throw`: either a string
literal (`throw "...";` throws a `const char *`) or an error object that
carries its kind. -/
inductive Thrown where
  | cstring (text : String)
  | typed (kind : ErrorKind)
  deriving DecidableEq

/-- What `ProxySolution<T>::proxy` leaves behind when it fails: the line sent to
`std::cerr` and the value thrown. -/
structure ProxyFailure where
  cerr : String
  thrown : Thrown
  deriving DecidableEq

/-- An access outside the bounds of an array (undefined behaviour in C++). -/
inductive MemoryFault where
  | outOfBounds
  deriving DecidableEq

/-! ## `base/weightedobject.h`, `base/weightmodifier.h` -/

/-- The abstract base class `WeightedObject`: a `size_t` weight that can be read
and replaced. -/
structure WeightedObject (T : Type) where
  getWeight : T → Nat
  setWeight : T → Nat → T

/-- The abstract base class `WeightModifier<T>`, implemented by the modifier
type `M`: `clone`, `getWeight(T&)`, `setWeight(T&, size_t)`.  The reference
argument of `setWeight` is returned as the updated object. -/
structure WeightModifier (M T : Type) where
  clone : M → M
  getWeight : M → T → Nat
  setWeight : M → T → Nat → T

/-! ## `point/point.h` -/

/-- Modelled from the spec: the class `Point` of `point/point.h`, which is not
among the sources.  The specification (section 3) describes a point as an
ordered sequence of `d` coordinates plus a non-negative scalar weight; the
interface `WeightedObject` that `Point` implements fixes the weight type to
`size_t`. -/
structure Point (D : Type) where
  coordinates : List D
  weight : Nat
  deriving DecidableEq

namespace Point

variable {D : Type}

/-- Modelled from the spec: the constructor `Point(std::vector<double>)` used by
`BicoExternal::addPoint`; "fixed-length coordinate vector, default weight 1"
(specification, section 4.2). -/
def ofCoordinates (coords : List D) : Point D :=
  ⟨coords, 1⟩

/-- Modelled from the spec: `Point::dimension()`, the number of coordinates. -/
def dimension (p : Point D) : Nat :=
  p.coordinates.length

/-- Modelled from the spec: `Point::getWeight()`, the stored weight. -/
def getWeight (p : Point D) : Nat :=
  p.weight

/-- Modelled from the spec: `Point::setWeight(size_t)`; it replaces the weight
and leaves the coordinates alone ("coordinates are immutable after creation"). -/
def setWeight (p : Point D) (w : Nat) : Point D :=
  ⟨p.coordinates, w⟩

/-- Modelled from the spec: `Point::operator[]`, coordinate `j` of the point;
reading a coordinate that does not exist is a memory fault. -/
def coordinate (p : Point D) (j : Nat) : Except MemoryFault D :=
  match p.coordinates[j]? with
  | some x => .ok x
  | none => .error .outOfBounds

/-- The class `Point` as a `WeightedObject`. -/
def weightedObject : WeightedObject (Point D) :=
  ⟨getWeight, setWeight⟩

end Point

/-! ## `point/pointweightmodifier.h` -/

/-- The class `PointWeightModifier`: it has no data members. -/
structure PointWeightModifier where
  deriving DecidableEq

namespace PointWeightModifier

variable {D : Type}

/-- `PointWeightModifier::clone`: `new PointWeightModifier(*this)`, a copy of
this object. -/
def clone (self : PointWeightModifier) : PointWeightModifier :=
  self

/-- `PointWeightModifier::getWeight(Point& p)`: `return p.getWeight();`. -/
def getWeight (_self : PointWeightModifier) (p : Point D) : Nat :=
  p.getWeight

/-- `PointWeightModifier::setWeight(Point& p, size_t w)`: `p.setWeight(w);`. -/
def setWeight (_self : PointWeightModifier) (p : Point D) (w : Nat) : Point D :=
  p.setWeight w

/-- The class `PointWeightModifier` as a `WeightModifier<Point>`. -/
def weightModifier : WeightModifier PointWeightModifier (Point D) :=
  ⟨clone, getWeight, setWeight⟩

end PointWeightModifier

/-! ## `datastructure/proxysolution.h` -/

/-- The struct `ProxySolution<T>`: `double seconds` and
`std::vector<std::vector<T>> proxysets`. -/
structure ProxySolution (D T : Type) where
  seconds : D
  proxysets : List (List T)

namespace ProxySolution

variable {D T : Type}

/-- The constructor `ProxySolution<T>::ProxySolution() : seconds()`: the time is
value-initialised to zero and there is no proxy set. -/
def ctor [Zero D] : ProxySolution D T :=
  ⟨0, []⟩

/-- `ProxySolution<T>::computationtime`. -/
def computationtime (self : ProxySolution D T) : D :=
  self.seconds

/-- `ProxySolution<T>::number_of_solutions`. -/
def number_of_solutions (self : ProxySolution D T) : Nat :=
  self.proxysets.length

/-- `ProxySolution<T>::size_of_solution`. -/
def size_of_solution (self : ProxySolution D T) (i : Nat) : Nat :=
  if h : i < self.proxysets.length then
    (self.proxysets[i]).length
  else
    0

/-- The two statements that end `ProxySolution<T>::proxy`: a line on `std::cerr`
and `throw "ILLEGAL STATE";`. -/
def proxyNotAvailable (n c : Nat) : ProxyFailure :=
  ⟨"ProxySolution<T>::proxy(" ++ toString n ++ "," ++ toString c
      ++ "): requested proxy not available\n",
    .cstring "ILLEGAL STATE"⟩

/-- `ProxySolution<T>::proxy`.  Both vector reads happen under the guard that
makes them in range, which the indexing here needs as a proof. -/
def proxy (self : ProxySolution D T) (n c : Nat) : Except ProxyFailure T :=
  if h : n < self.proxysets.length then
    if h2 : c < (self.proxysets[n]).length then
      .ok ((self.proxysets[n])[c])
    else
      .error (proxyNotAvailable n c)
  else
    .error (proxyNotAvailable n c)

/-- `ProxySolution<T>::proxies`. -/
def proxies (self : ProxySolution D T) (n : Nat) : List T :=
  if h : n < self.proxysets.length then
    self.proxysets[n]
  else
    []

end ProxySolution

end CluE

/-! ## `point/squaredl2metric.h` -/

namespace CluE

/-- Modelled from the spec: the class `SquaredL2Metric` of
`point/squaredl2metric.h`, which is not among the sources; the default
`MetricPolicy`, a stateless strategy object (specification, sections 2 and
4.1). -/
structure SquaredL2Metric where
  deriving DecidableEq

end CluE

/-! ## `_core.cpp` -/

open CluE

/-- The operations of `Bico<Point>` (`clustering/bico.h`, not among the sources)
that `_core.cpp` calls, over the state `σ` of one engine object:
the constructor `Bico<Point>(d, k, p, m, seed, metric, weightModifier)`,
`operator<<` and `compute()`. -/
structure Engine (D σ : Type) where
  create : Nat → Nat → Nat → Nat → Int → SquaredL2Metric → PointWeightModifier
    → Except Thrown σ
  insert : σ → Point D → Except Thrown σ
  compute : σ → ProxySolution D (Point D)

/-- An engine that only records, in order, the points it is handed, and returns
the record as its one proxy set.  It makes the calls that the binding issues
observable. -/
def Engine.recorder {D : Type} [Zero D] : Engine D (List (Point D)) :=
  ⟨fun _ _ _ _ _ _ _ => .ok [], fun log point => .ok (log ++ [point]),
    fun log => ⟨0, [log]⟩⟩

/-- The class `BicoExternal`: `const uint _d` and the engine object that
`Bico<Point> *_bico` points to. -/
structure BicoExternal (σ : Type) where
  _d : Nat
  _bico : σ

/-- A checked write `buf[idx] = v` into a caller-supplied buffer. -/
def store {D : Type} (buf : List D) (idx : Nat) (v : D) : Except MemoryFault (List D) :=
  if idx < buf.length then .ok (buf.set idx v) else .error .outOfBounds

/-- A checked read `v[idx]` of a `std::vector`. -/
def load {α : Type} (v : List α) (idx : Nat) : Except MemoryFault α :=
  match v[idx]? with
  | some x => .ok x
  | none => .error .outOfBounds

namespace BicoExternal

variable {D σ : Type}

/-- The constructor `BicoExternal::BicoExternal`: `_d(d)` and
`_bico(new Bico<Point>(d, k, p, m, seed, new SquaredL2Metric(), new PointWeightModifier()))`.
An exception of the engine constructor leaves no object behind. -/
def ctor (E : Engine D σ) (d k p m : Nat) (seed : Int) : Except Thrown (BicoExternal σ) :=
  match E.create d k p m seed SquaredL2Metric.mk PointWeightModifier.mk with
  | .ok bico => .ok ⟨d, bico⟩
  | .error e => .error e

/-- `BicoExternal::addPoint`: `coords(array, array + _d)` copies `_d` values,
`Point p(coords)` wraps them, `*_bico << p` hands the point to the engine. -/
def addPoint (E : Engine D σ) (self : BicoExternal σ) (array : Nat → D) :
    Except Thrown (BicoExternal σ) :=
  let coords : List D := (List.range self._d).map array
  let p : Point D := Point.ofCoordinates coords
  match E.insert self._bico p with
  | .ok bico => .ok ⟨self._d, bico⟩
  | .error e => .error e

/-- The loop of `BicoExternal::addData`, entered with the value of `i`:
`for (size_t i = 0; i < n * _d; i += _d) addPoint(&array[i]);`.
The bound `n * _d` is a product of two `unsigned int` and wraps at `2 ^ 32`;
`i` is a `size_t` that stays below `2 ^ 33`. -/
def addDataLoop (E : Engine D σ) (array : Nat → D) (n : Nat) (i : Nat)
    (self : BicoExternal σ) : Except Thrown (BicoExternal σ) :=
  if _h : i < n * self._d % 4294967296 then
    match _hp : addPoint E self (fun k => array (i + k)) with
    | .ok self1 => addDataLoop E array n (i + self._d) self1
    | .error e => .error e
  else
    .ok self
termination_by n * self._d % 4294967296 - i
decreasing_by
  have hd : self1._d = self._d := by
    unfold addPoint at _hp
    dsimp only at _hp
    split at _hp
    · cases _hp; rfl
    · cases _hp
  have hpos : 0 < self._d := by
    rcases Nat.eq_zero_or_pos self._d with h0 | h0
    · rw [h0] at _h; simp at _h
    · exact h0
  rw [hd]
  omega

/-- `BicoExternal::addData`. -/
def addData (E : Engine D σ) (self : BicoExternal σ) (array : Nat → D) (n : Nat) :
    Except Thrown (BicoExternal σ) :=
  addDataLoop E array n 0 self

/-- The inner loop of `BicoExternal::compute` for proxy `i`:
`for (size_t j = 0; j < proxy.dimension(); ++j) points[i * _d + j] = proxy[j];`
with the index computed in `size_t`. -/
def computeCoordinates (d i : Nat) (proxy : Point D) (points : List D) :
    Except MemoryFault (List D) :=
  (List.range proxy.dimension).foldlM
    (fun pts j =>
      match proxy.coordinate j with
      | .ok x => store pts ((i * d + j) % 18446744073709551616) x
      | .error e => .error e)
    points

/-- The body of the outer loop of `BicoExternal::compute` for index `i`, on the
pair of output buffers `(sample_weights, points)`. -/
def computeProxy [NatCast D] (d : Nat) (set0 : List (Point D)) (bufs : List D × List D)
    (i : Nat) : Except MemoryFault (List D × List D) :=
  match load set0 i with
  | .error e => .error e
  | .ok proxy =>
    match store bufs.1 i (proxy.getWeight : D) with
    | .error e => .error e
    | .ok sw =>
      match computeCoordinates d i proxy bufs.2 with
      | .error e => .error e
      | .ok pts => .ok (sw, pts)

/-- `BicoExternal::compute`: reads `sol->proxysets[0]`, runs
`for (size_t i = 0; i < sol->proxysets[0].size(); ++i)` and returns
`sol->proxysets[0].size()` together with the two buffers as it leaves them. -/
def compute [NatCast D] (E : Engine D σ) (self : BicoExternal σ)
    (sample_weights points : List D) : Except MemoryFault (Nat × List D × List D) :=
  let sol := E.compute self._bico
  match load sol.proxysets 0 with
  | .error e => .error e
  | .ok set0 =>
    match (List.range set0.length).foldlM (computeProxy self._d set0)
        (sample_weights, points) with
    | .error e => .error e
    | .ok bufs => .ok (set0.length, bufs.1, bufs.2)

end BicoExternal

/-- The exported function `init`: `return new BicoExternal(d, k, p, m, seed);`. -/
def init {D σ : Type} (E : Engine D σ) (d k p m : Nat) (seed : Int) :
    Except Thrown (BicoExternal σ) :=
  BicoExternal.ctor E d k p m seed

/-! ## The engine `Bico<Point>`, from the specification

`clustering/bico.h` is not among the sources.  The definitions of this section
follow sections 3 and 4 of the specification.  Coordinates are rationals here,
because the engine computes with them (sums and centroids). -/

namespace CluE

/-- Modelled from the spec: `SquaredL2Metric`, the default `MetricPolicy`
(squared Euclidean distance) of section 2, missing with
`point/squaredl2metric.h`. -/
def squaredL2 (_metric : SquaredL2Metric) (a b : List ℚ) : ℚ :=
  (List.zipWith (fun x y => (x - y) * (x - y)) a b).sum

/-- Modelled from the spec: the `ClusteringFeature` of section 3, missing with
`clustering/bico.h`: the number of points folded in, the sum of their weights
and the coordinate-wise sum of their coordinates scaled by their weights. -/
structure ClusteringFeature where
  count : Nat
  totalWeight : Nat
  weightedSum : List ℚ

namespace ClusteringFeature

/-- Modelled from the spec: the node "seeded with this single point" of section
4.3; the weight is read through the `WeightPolicy`. -/
def ofPoint (wm : PointWeightModifier) (point : Point ℚ) : ClusteringFeature :=
  ⟨1, wm.getWeight point, point.coordinates.map (fun x => (wm.getWeight point : ℚ) * x)⟩

/-- Modelled from the spec: merging two aggregates (section 4.3, `rebuild`):
counts, weights and weighted sums add up. -/
def merge (a b : ClusteringFeature) : ClusteringFeature :=
  ⟨a.count + b.count, a.totalWeight + b.totalWeight,
    List.zipWith (fun x y => x + y) a.weightedSum b.weightedSum⟩

/-- Modelled from the spec: merging a point into a node (section 4.3,
`insert`: "updates count, weightedSum in place"). -/
def addPoint (wm : PointWeightModifier) (cf : ClusteringFeature) (point : Point ℚ) :
    ClusteringFeature :=
  cf.merge (ofPoint wm point)

/-- Modelled from the spec: the representative `weightedSum / totalWeight`, the
weighted centroid (section 3). -/
def representative (cf : ClusteringFeature) : List ℚ :=
  cf.weightedSum.map (fun x => x / (cf.totalWeight : ℚ))

end ClusteringFeature

/-- Modelled from the spec: the nodes below one parent of the `CoresetTree` of
section 3 (missing with `clustering/bico.h`), in creation order; every node
carries its aggregate and its own children. -/
inductive Nodes where
  | nil
  | node (cf : ClusteringFeature) (children : Nodes) (next : Nodes)

namespace Nodes

/-- Modelled from the spec: the number of live nodes below a parent, the
quantity that the memory bound `m` limits (section 3). -/
def count : Nodes → Nat
  | nil => 0
  | node _ children next => 1 + count children + count next

/-- Modelled from the spec: whether a child list is empty, that is, whether its
parent is a leaf of the tree (section 3). -/
def isNil : Nodes → Bool
  | nil => true
  | node _ _ _ => false

/-- Modelled from the spec: the aggregates of the leaves, in tree order; "leaves
hold the actual ClusteringFeatures exposed in the final output" (section 3). -/
def leaves : Nodes → List ClusteringFeature
  | nil => []
  | node cf children next =>
    (if children.isNil then [cf] else leaves children) ++ leaves next

/-- Modelled from the spec: the children of a merged node (section 4.3,
`rebuild`), the children of the first node followed by those of the second. -/
def append : Nodes → Nodes → Nodes
  | nil, other => other
  | node cf children next, other => node cf children (append next other)

/-- Modelled from the spec: "selects the child ClusteringFeature minimizing
`distance(point, child.representative)`" (section 4.3) among at most `budget`
candidates (the parameter `p` of section 4.4, "how many candidate children are
considered per level"); the result is the position of the child, counted from
`index`, and its distance.  The earliest child wins a tie. -/
def nearest (metric : SquaredL2Metric) (q : List ℚ) : Nat → Nat → Nodes → Option (Nat × ℚ)
  | 0, _, _ => none
  | _, _, nil => none
  | budget + 1, index, node cf _ next =>
    match nearest metric q budget (index + 1) next with
    | none => some (index, squaredL2 metric q cf.representative)
    | some (j, dj) =>
      if squaredL2 metric q cf.representative ≤ dj then
        some (index, squaredL2 metric q cf.representative)
      else
        some (j, dj)

/-- Modelled from the spec: the child that a point descends into at `level`: the
nearest candidate, "if the minimal distance is within the level's current
threshold" (section 4.3), and none otherwise. -/
def target (metric : SquaredL2Metric) (radius : Nat → ℚ) (p : Nat) (q : List ℚ)
    (level : Nat) (children : Nodes) : Option Nat :=
  match nearest metric q p 0 children with
  | some (i, dist) => if dist ≤ radius level then some i else none
  | none => none

/-- Modelled from the spec: the descent of `insert(point)` (section 4.3) through
one child list.  With a target child, the point is merged into that child and
the descent goes on below it, "down to a leaf"; without one, "creates a new
child node seeded with this single point, terminating descent there". -/
def insertAt (metric : SquaredL2Metric) (wm : PointWeightModifier) (radius : Nat → ℚ)
    (p : Nat) (point : Point ℚ) : Nat → Option Nat → Nodes → Nodes
  | _, _, nil => node (ClusteringFeature.ofPoint wm point) nil nil
  | level, none, node cf children next =>
    node cf children (insertAt metric wm radius p point level none next)
  | level, some (i + 1), node cf children next =>
    node cf children (insertAt metric wm radius p point level (some i) next)
  | level, some 0, node cf children next =>
    if children.isNil then
      node (cf.addPoint wm point) nil next
    else
      node (cf.addPoint wm point)
        (insertAt metric wm radius p point (level + 1)
          (target metric radius p point.coordinates (level + 1) children) children)
        next

/-- Modelled from the spec: the search of `rebuild` (section 4.3) for a sibling
that can be merged with the node `(cf, leaf)`: the first one of the same kind
(leaf with leaf, subtree with subtree) whose representative is within
`radius` of the representative of `cf`.  The result is that sibling's
aggregate, its children, and the sibling list without it. -/
def takePartner (metric : SquaredL2Metric) (radius : ℚ) (cf : ClusteringFeature)
    (leaf : Bool) : Nodes → Option (ClusteringFeature × Nodes × Nodes)
  | nil => none
  | node cf2 children2 next =>
    if children2.isNil = leaf
        ∧ squaredL2 metric cf.representative cf2.representative ≤ radius then
      some (cf2, children2, next)
    else
      match takePartner metric radius cf leaf next with
      | none => none
      | some (cf3, children3, rest) => some (cf3, children3, node cf2 children2 rest)

/-- Modelled from the spec: one merge of `rebuild` (section 4.3): the first pair
of "sibling nodes and shallow subtrees whose representatives now fall within
the enlarged threshold of a common ancestor" becomes one node, whose aggregate
is the sum of the two and whose children are the children of both.  Siblings
are tried before the levels below them. -/
def mergeStep (metric : SquaredL2Metric) (radius : Nat → ℚ) : Nat → Nodes → Option Nodes
  | _, nil => none
  | level, node cf children next =>
    match takePartner metric (radius level) cf children.isNil next with
    | some (cf2, children2, rest) => some (node (cf.merge cf2) (children.append children2) rest)
    | none =>
      match mergeStep metric radius (level + 1) children with
      | some children1 => some (node cf children1 next)
      | none =>
        match mergeStep metric radius level next with
        | some next1 => some (node cf children next1)
        | none => none

/-- Modelled from the spec: the loop of `rebuild` (section 4.3): merge "until the
structure again satisfies `count ≤ m` or no further merges are possible under
the new thresholds".  Every merge removes one node, so `count` rounds are
enough. -/
def reaggregate (metric : SquaredL2Metric) (radius : Nat → ℚ) (m : Nat) : Nat → Nodes → Nodes
  | 0, nodes => nodes
  | rounds + 1, nodes =>
    if nodes.count ≤ m then
      nodes
    else
      match mergeStep metric radius 0 nodes with
      | none => nodes
      | some merged => reaggregate metric radius m rounds merged

end Nodes

/-- Modelled from the spec: the `CoresetTree` of section 3, missing with
`clustering/bico.h`: the memory bound `m`, the candidate limit `p`, the
matching threshold of every level, and the nodes below the root. -/
structure CoresetTree where
  m : Nat
  p : Nat
  radius : Nat → ℚ
  root : Nodes

namespace CoresetTree

/-- Modelled from the spec: `rebuild()` (section 4.3): it "doubles every level's
threshold, then re-aggregates". -/
def rebuild (metric : SquaredL2Metric) (tree : CoresetTree) : CoresetTree :=
  { tree with
    radius := fun level => 2 * tree.radius level
    root := Nodes.reaggregate metric (fun level => 2 * tree.radius level) tree.m
      tree.root.count tree.root }

/-- Modelled from the spec: `insert(point)` (section 4.3): the descent from the
root, and "if the total node count after insertion exceeds `m`, triggers
`rebuild()`". -/
def insert (metric : SquaredL2Metric) (wm : PointWeightModifier) (tree : CoresetTree)
    (point : Point ℚ) : CoresetTree :=
  let grown : CoresetTree :=
    { tree with
      root := Nodes.insertAt metric wm tree.radius tree.p point 0
        (Nodes.target metric tree.radius tree.p point.coordinates 0 tree.root) tree.root }
  if grown.root.count > grown.m then rebuild metric grown else grown

end CoresetTree

/-- Modelled from the spec: the `BicoEngine` of section 4.4, the class
`Bico<Point>` missing with `clustering/bico.h`: the constructor arguments and
the tree. -/
structure Bico where
  d : Nat
  k : Nat
  seed : Int
  metric : SquaredL2Metric
  weightModifier : PointWeightModifier
  tree : CoresetTree

namespace Bico

/-- Modelled from the spec: the constructor of section 4.4, missing with
`clustering/bico.h`.  `InvalidConfiguration` (section 7) is "raised at
construction" for `d = 0`, `m < 1` and `k = 0`; the tree starts without nodes.
The specification leaves the initial thresholds open (they may depend on the
seed), so they are the argument `thresholds`. -/
def create (thresholds : Int → Nat → ℚ) (d k p m : Nat) (seed : Int)
    (metric : SquaredL2Metric) (wm : PointWeightModifier) : Except Thrown Bico :=
  if d = 0 ∨ m < 1 ∨ k = 0 then
    .error (.typed .InvalidConfiguration)
  else
    .ok ⟨d, k, seed, metric, wm, ⟨m, p, thresholds seed, .nil⟩⟩

/-- Modelled from the spec: `insert(point)` of section 4.4, the `operator<<`
missing with `clustering/bico.h`: it "forwards to CoresetTree; fails with an
`InvalidInput` error if `point`'s dimensionality ≠ `d`". -/
def insert (self : Bico) (point : Point ℚ) : Except Thrown Bico :=
  if point.dimension ≠ self.d then
    .error (.typed .InvalidInput)
  else
    .ok { self with tree := self.tree.insert self.metric self.weightModifier point }

/-- Modelled from the spec: the output entry of one leaf (sections 2 and 3): its
representative as coordinates and its total weight, written through the
`WeightPolicy`. -/
def proxyOf (wm : PointWeightModifier) (cf : ClusteringFeature) : Point ℚ :=
  wm.setWeight (Point.ofCoordinates cf.representative) cf.totalWeight

/-- Modelled from the spec: `compute()` of section 4.4, missing with
`clustering/bico.h`: "walk all leaves, read weight/coordinates, assemble
ProxySolution".  The sequence of the specification is the proxy set that
`BicoExternal::compute` reads, `proxysets[0]`; the elapsed time is not part of
the model and stays at its initial value. -/
def compute (self : Bico) : ProxySolution ℚ (Point ℚ) :=
  { (ProxySolution.ctor : ProxySolution ℚ (Point ℚ)) with
    proxysets := [self.tree.root.leaves.map (proxyOf self.weightModifier)] }

/-- Modelled from the spec: the engine of section 4.4 behind the interface that
`_core.cpp` uses (constructor, `insert`, `compute`). -/
def engine (thresholds : Int → Nat → ℚ) : Engine ℚ Bico :=
  ⟨create thresholds, insert, compute⟩

end Bico

end CluE

/-! ## Measures on the modelled engine -/

namespace CluE

/-- The total weight that the leaves below a parent carry: the sum of the
weights that `compute` reports. -/
def Nodes.weight : Nodes → Nat
  | .nil => 0
  | .node cf children next =>
    (if children.isNil then cf.totalWeight else Nodes.weight children) + Nodes.weight next

/-- Whether every aggregate below a parent has a weighted sum of `d`
coordinates. -/
def Nodes.allDim (d : Nat) : Nodes → Bool
  | .nil => true
  | .node cf children next =>
    decide (cf.weightedSum.length = d) && Nodes.allDim d children && Nodes.allDim d next

end CluE

/-- The state of a binding object over the modelled engine that has taken in
`N` points: the dimension is at least 1 and is the dimension of the engine,
every aggregate has that many coordinates, and the leaves weigh `N`. -/
def BicoExternal.Holds (self : BicoExternal CluE.Bico) (N : Nat) : Prop :=
  1 ≤ self._d ∧ self._bico.d = self._d
    ∧ self._bico.tree.root.allDim self._d = true
    ∧ self._bico.tree.root.weight = N

/-- The engine objects over the modelled engine that a caller reaches through
the binding, with the number of points fed so far: a new object from `init`,
one more point by `addPoint`, `n` more points by an `addData` whose loop bound
`n * _d` does not wrap. -/
inductive Fed (thresholds : Int → Nat → ℚ) : BicoExternal CluE.Bico → Nat → Prop
  | created (d k p m : Nat) (seed : Int) (engine : BicoExternal CluE.Bico) :
      init (CluE.Bico.engine thresholds) d k p m seed = .ok engine →
      Fed thresholds engine 0
  | point (engine next : BicoExternal CluE.Bico) (N : Nat) (array : Nat → ℚ) :
      Fed thresholds engine N →
      BicoExternal.addPoint (CluE.Bico.engine thresholds) engine array = .ok next →
      Fed thresholds next (N + 1)
  | data (engine next : BicoExternal CluE.Bico) (N : Nat) (array : Nat → ℚ) (n : Nat) :
      Fed thresholds engine N →
      n * engine._d < 4294967296 →
      BicoExternal.addData (CluE.Bico.engine thresholds) engine array n = .ok next →
      Fed thresholds next (N + n)

/-! # Properties -/

section ComputeProperties

open CluE

variable {D σ : Type}

/-- A checked write inside the buffer succeeds and replaces one cell. -/
theorem store_ok (buf : List D) (idx : Nat) (v : D) (h : idx < buf.length) :
    store buf idx v = .ok (buf.set idx v) := by
  unfold store
  rw [if_pos h]

/-- A checked read of an existing element succeeds. -/
theorem load_ok {α : Type} (v : List α) (idx : Nat) (x : α) (h : v[idx]? = some x) :
    load v idx = .ok x := by
  unfold load
  rw [h]

/-- Rows of width `d` do not overlap: cell `j < d` of row `i < r` lies below
row `r`. -/
theorem row_cell_lt (d i j r : Nat) (hi : i < r) (hj : j < d) : i * d + j < r * d := by
  have h1 : (i + 1) * d ≤ r * d := Nat.mul_le_mul_right d hi
  rw [Nat.add_mul, Nat.one_mul] at h1
  omega

/-- The inner loop of `compute`, run for the first `m` coordinates of a proxy
whose row fits into `points`: it succeeds, keeps the length of the buffer and
changes exactly the cells `i * d + j` with `j < m`. -/
theorem coordinates_loop (d i : Nat) (proxy : Point D) (points : List D)
    (hfit : i * d + proxy.dimension ≤ points.length)
    (hsize : points.length < 18446744073709551616) (m : Nat) (hm : m ≤ proxy.dimension) :
    ∃ pts, (List.range m).foldlM
        (fun pts j =>
          match proxy.coordinate j with
          | .ok x => store pts ((i * d + j) % 18446744073709551616) x
          | .error e => .error e)
        points = Except.ok pts
      ∧ pts.length = points.length
      ∧ ∀ k, pts[k]? = if i * d ≤ k ∧ k < i * d + m then proxy.coordinates[k - i * d]?
          else points[k]? := by
  induction m with
  | zero =>
    refine ⟨points, rfl, rfl, ?_⟩
    intro k
    rw [if_neg (by omega)]
  | succ m ih =>
    obtain ⟨pts, hrun, hlen, hcells⟩ := ih (by omega)
    have hm1 : m < proxy.coordinates.length := hm
    have hidx : (i * d + m) % 18446744073709551616 = i * d + m := by
      apply Nat.mod_eq_of_lt
      unfold Point.dimension at hfit
      omega
    have hin : i * d + m < pts.length := by
      unfold Point.dimension at hfit
      omega
    refine ⟨pts.set (i * d + m) (proxy.coordinates[m]), ?_, ?_, ?_⟩
    · rw [List.range_succ, List.foldlM_append, hrun]
      simp only [Point.coordinate, List.getElem?_eq_getElem hm1, hidx, store_ok pts _ _ hin,
        List.foldlM_cons, List.foldlM_nil, bind, Except.bind, pure, Except.pure]
    · rw [List.length_set, hlen]
    · intro k
      rw [List.getElem?_set]
      by_cases hk : i * d + m = k
      · subst hk
        rw [if_pos rfl, if_pos hin, if_pos (by omega)]
        simp only [Nat.add_sub_cancel_left]
        exact (List.getElem?_eq_getElem hm1).symm
      · rw [if_neg hk, hcells k]
        by_cases hr : i * d ≤ k ∧ k < i * d + m
        · rw [if_pos hr, if_pos (by omega)]
        · rw [if_neg hr, if_neg (by omega)]

/-- The inner loop of `compute` for a whole proxy. -/
theorem computeCoordinates_ok (d i : Nat) (proxy : Point D) (points : List D)
    (hfit : i * d + proxy.dimension ≤ points.length)
    (hsize : points.length < 18446744073709551616) :
    ∃ pts, BicoExternal.computeCoordinates d i proxy points = .ok pts
      ∧ pts.length = points.length
      ∧ ∀ k, pts[k]? = if i * d ≤ k ∧ k < i * d + proxy.dimension
          then proxy.coordinates[k - i * d]? else points[k]? :=
  coordinates_loop d i proxy points hfit hsize proxy.dimension (Nat.le_refl _)

/-- The outer loop of `compute`, run for the first `r` proxies of a proxy set
whose proxies all have dimension `d`, on buffers that are long enough: it
succeeds, keeps the lengths of both buffers, fills `sample_weights[i]` and
`points[i * d + j]` for `i < r`, and leaves every other cell alone. -/
theorem proxies_loop [NatCast D] (d : Nat) (set0 : List (Point D))
    (sample_weights points : List D)
    (hdim : ∀ proxy ∈ set0, proxy.dimension = d)
    (hsw : set0.length ≤ sample_weights.length)
    (hpts : set0.length * d ≤ points.length)
    (hsize : points.length < 18446744073709551616) (r : Nat) (hr : r ≤ set0.length) :
    ∃ sw pts, (List.range r).foldlM (BicoExternal.computeProxy d set0)
        (sample_weights, points) = Except.ok (sw, pts)
      ∧ sw.length = sample_weights.length
      ∧ pts.length = points.length
      ∧ (∀ i proxy, i < r → set0[i]? = some proxy →
          sw[i]? = some (proxy.getWeight : D)
            ∧ ∀ j, j < d → pts[i * d + j]? = proxy.coordinates[j]?)
      ∧ (∀ i, r ≤ i → sw[i]? = sample_weights[i]?)
      ∧ (∀ k, r * d ≤ k → pts[k]? = points[k]?) := by
  induction r with
  | zero =>
    refine ⟨sample_weights, points, rfl, rfl, rfl, ?_, fun _ _ => rfl, fun _ _ => rfl⟩
    intro i proxy hi
    omega
  | succ r ih =>
    obtain ⟨sw, pts, hrun, hlsw, hlpts, hin, hsw_out, hpts_out⟩ := ih (by omega)
    have hr1 : r < set0.length := hr
    have hproxy : set0[r]? = some (set0[r]) := List.getElem?_eq_getElem hr1
    have hd : (set0[r]).dimension = d := hdim _ (List.getElem_mem hr1)
    have hrow : r * d + d ≤ set0.length * d := by
      have h1 : (r + 1) * d ≤ set0.length * d := Nat.mul_le_mul_right d hr1
      rw [Nat.add_mul, Nat.one_mul] at h1
      exact h1
    obtain ⟨pts1, hinner, hlpts1, hcells⟩ :=
      computeCoordinates_ok d r (set0[r]) pts (by rw [hd, hlpts]; omega) (by rw [hlpts]; exact hsize)
    refine ⟨sw.set r ((set0[r]).getWeight : D), pts1, ?_, ?_, ?_, ?_, ?_, ?_⟩
    · rw [List.range_succ, List.foldlM_append, hrun]
      simp only [BicoExternal.computeProxy, load_ok set0 r _ hproxy,
        store_ok sw r _ (by omega : r < sw.length), hinner,
        List.foldlM_cons, List.foldlM_nil, bind, Except.bind, pure, Except.pure]
    · rw [List.length_set, hlsw]
    · rw [hlpts1, hlpts]
    · intro i proxy hi hget
      by_cases hir : i = r
      · subst hir
        rw [hproxy] at hget
        cases hget
        refine ⟨?_, ?_⟩
        · rw [List.getElem?_set, if_pos rfl, if_pos (by omega)]
        · intro j hj
          rw [hcells, if_pos (by rw [hd]; omega)]
          simp only [Nat.add_sub_cancel_left]
      · have hlt : i < r := by omega
        obtain ⟨hw, hc⟩ := hin i proxy hlt hget
        refine ⟨?_, ?_⟩
        · rw [List.getElem?_set, if_neg (by omega)]
          exact hw
        · intro j hj
          have hcell := row_cell_lt d i j r hlt hj
          rw [hcells, if_neg (by omega)]
          exact hc j hj
    · intro i hi
      rw [List.getElem?_set, if_neg (by omega)]
      exact hsw_out i (by omega)
    · intro k hk
      have hk1 : r * d + d ≤ k := by
        rw [Nat.add_mul, Nat.one_mul] at hk
        exact hk
      rw [hcells, if_neg (by rw [hd]; omega)]
      exact hpts_out k (by omega)

/-- What `compute` does on a well-formed solution: shared by the claims about
its results and about its accesses. -/
theorem compute_run [NatCast D] (E : Engine D σ) (self : BicoExternal σ)
    (set0 : List (Point D)) (rest : List (List (Point D)))
    (sample_weights points : List D)
    (hsol : (E.compute self._bico).proxysets = set0 :: rest)
    (hdim : ∀ proxy ∈ set0, proxy.dimension = self._d)
    (hsw : set0.length ≤ sample_weights.length)
    (hpts : set0.length * self._d ≤ points.length)
    (hsize : points.length < 18446744073709551616) :
    ∃ sw pts, BicoExternal.compute E self sample_weights points
        = .ok (set0.length, sw, pts)
      ∧ sw.length = sample_weights.length
      ∧ pts.length = points.length
      ∧ (∀ i proxy, set0[i]? = some proxy →
          sw[i]? = some (proxy.getWeight : D)
            ∧ ∀ j, j < self._d → pts[i * self._d + j]? = proxy.coordinates[j]?)
      ∧ (∀ i, set0.length ≤ i → sw[i]? = sample_weights[i]?)
      ∧ (∀ k, set0.length * self._d ≤ k → pts[k]? = points[k]?) := by
  obtain ⟨sw, pts, hrun, hlsw, hlpts, hin, hsw_out, hpts_out⟩ :=
    proxies_loop self._d set0 sample_weights points hdim hsw hpts hsize set0.length
      (Nat.le_refl _)
  refine ⟨sw, pts, ?_, hlsw, hlpts, ?_, hsw_out, hpts_out⟩
  · unfold BicoExternal.compute
    have hload : load (set0 :: rest) 0 = .ok set0 := load_ok _ 0 set0 (by simp)
    simp only [hsol, hload, hrun]
  · intro i proxy hget
    have hi : i < set0.length := by
      by_contra hn
      rw [List.getElem?_eq_none (Nat.le_of_not_lt hn)] at hget
      cases hget
    exact hin i proxy hi hget

end ComputeProperties

section ProxySolutionProperties

open CluE

variable {D T : Type}

/-- C10: the size and list accessors of `ProxySolution` never fail and agree
with each other.  For every solution and every index `n`: when `n` is below
`number_of_solutions()`, `size_of_solution(n)` is the length of `proxysets[n]`
and `proxies(n)` is `proxysets[n]`; otherwise they are `0` and the empty list;
in both cases `size_of_solution(n)` is the length of `proxies(n)`, and a proxy
that `proxy(n, c)` returns is element `c` of `proxies(n)`. -/
theorem proxysolution_accessors_consistent (self : ProxySolution D T) (n : Nat) :
    (n < self.number_of_solutions →
        self.proxysets[n]? = some (self.proxies n)
          ∧ self.size_of_solution n = (self.proxies n).length)
      ∧ (¬ n < self.number_of_solutions →
        self.size_of_solution n = 0 ∧ self.proxies n = [])
      ∧ self.size_of_solution n = (self.proxies n).length
      ∧ ∀ c x, self.proxy n c = .ok x → (self.proxies n)[c]? = some x := by
  have hsize : self.size_of_solution n = (self.proxies n).length := by
    unfold ProxySolution.size_of_solution ProxySolution.proxies
    split <;> rfl
  refine ⟨?_, ?_, hsize, ?_⟩
  · intro h
    have h1 : n < self.proxysets.length := h
    refine ⟨?_, hsize⟩
    unfold ProxySolution.proxies
    rw [dif_pos h1]
    exact List.getElem?_eq_getElem h1
  · intro h
    have h1 : ¬ n < self.proxysets.length := h
    unfold ProxySolution.size_of_solution ProxySolution.proxies
    rw [dif_neg h1, dif_neg h1]
    exact ⟨rfl, rfl⟩
  · intro c x hx
    unfold ProxySolution.proxy at hx
    unfold ProxySolution.proxies
    by_cases h : n < self.proxysets.length
    · rw [dif_pos h] at hx
      rw [dif_pos h]
      by_cases h2 : c < (self.proxysets[n]).length
      · rw [dif_pos h2] at hx
        cases hx
        exact List.getElem?_eq_getElem h2
      · rw [dif_neg h2] at hx
        cases hx
    · rw [dif_neg h] at hx
      cases hx

/-- Witness for C10: a solution with the proxy sets `[7, 8]` and `[]`, read at
set `0` and at the missing set `2`. -/
theorem proxysolution_accessors_consistent_witness :
    ((0 < (⟨0, [[7, 8], []]⟩ : ProxySolution ℤ ℕ).number_of_solutions)
        ∧ (⟨0, [[7, 8], []]⟩ : ProxySolution ℤ ℕ).size_of_solution 0 = 2
        ∧ (⟨0, [[7, 8], []]⟩ : ProxySolution ℤ ℕ).proxies 0 = [7, 8]
        ∧ (⟨0, [[7, 8], []]⟩ : ProxySolution ℤ ℕ).proxy 0 1 = .ok 8
        ∧ ([7, 8] : List ℕ)[1]? = some 8)
      ∧ (¬ 2 < (⟨0, [[7, 8], []]⟩ : ProxySolution ℤ ℕ).number_of_solutions)
        ∧ (⟨0, [[7, 8], []]⟩ : ProxySolution ℤ ℕ).size_of_solution 2 = 0
        ∧ (⟨0, [[7, 8], []]⟩ : ProxySolution ℤ ℕ).proxies 2 = [] := by
  have h0 := proxysolution_accessors_consistent (⟨0, [[7, 8], []]⟩ : ProxySolution ℤ ℕ) 0
  have h2 := proxysolution_accessors_consistent (⟨0, [[7, 8], []]⟩ : ProxySolution ℤ ℕ) 2
  have p0 : 0 < (⟨0, [[7, 8], []]⟩ : ProxySolution ℤ ℕ).number_of_solutions := by decide
  have p2 : ¬ 2 < (⟨0, [[7, 8], []]⟩ : ProxySolution ℤ ℕ).number_of_solutions := by decide
  have q0 : (⟨0, [[7, 8], []]⟩ : ProxySolution ℤ ℕ).proxies 0 = [7, 8] := rfl
  refine ⟨⟨p0, ?_, q0, rfl, ?_⟩, p2, (h2.2.1 p2).1, (h2.2.1 p2).2⟩
  · rw [(h0.1 p0).2, q0]; rfl
  · have := h0.2.2.2 1 8 rfl
    rw [q0] at this
    exact this

/-- Counterexample for C4: on a solution without proxy sets, `proxy(0, 0)` fails
with the string literal `"ILLEGAL STATE"`, not with a typed `OutOfRange`
error. -/
theorem proxy_throws_string_literal :
    (∃ line, (ProxySolution.ctor : ProxySolution ℤ ℕ).proxy 0 0
        = .error ⟨line, .cstring "ILLEGAL STATE"⟩)
      ∧ ¬ ∃ line, (ProxySolution.ctor : ProxySolution ℤ ℕ).proxy 0 0
        = .error ⟨line, .typed .OutOfRange⟩ := by
  refine ⟨⟨_, rfl⟩, ?_⟩
  rintro ⟨line, h⟩
  simp [ProxySolution.proxy, ProxySolution.ctor, ProxySolution.proxyNotAvailable] at h

/-- C4 (amended): `proxy(n, c)` is bounds-checked.  It returns `proxysets[n][c]`
exactly when `n < number_of_solutions()` and `c < size_of_solution(n)`; for
every other index pair it reads nothing, writes one line to `std::cerr` and
throws the string literal `"ILLEGAL STATE"`. -/
theorem proxy_checks_bounds (self : ProxySolution D T) (n c : Nat) :
    (∀ x, self.proxy n c = .ok x
        ↔ ∃ set, self.proxysets[n]? = some set ∧ set[c]? = some x)
      ∧ ((∃ x, self.proxy n c = .ok x)
        ↔ n < self.number_of_solutions ∧ c < self.size_of_solution n)
      ∧ (self.proxy n c = .error (ProxySolution.proxyNotAvailable n c)
        ↔ ¬ (n < self.number_of_solutions ∧ c < self.size_of_solution n))
      ∧ (ProxySolution.proxyNotAvailable n c).thrown = .cstring "ILLEGAL STATE" := by
  have hvalid : (n < self.number_of_solutions ∧ c < self.size_of_solution n)
      ↔ ∃ h : n < self.proxysets.length, c < (self.proxysets[n]).length := by
    unfold ProxySolution.number_of_solutions ProxySolution.size_of_solution
    constructor
    · rintro ⟨h, h2⟩
      rw [dif_pos h] at h2
      exact ⟨h, h2⟩
    · rintro ⟨h, h2⟩
      refine ⟨h, ?_⟩
      rw [dif_pos h]
      exact h2
  refine ⟨?_, ?_, ?_, rfl⟩
  · intro x
    unfold ProxySolution.proxy
    constructor
    · intro hx
      by_cases h : n < self.proxysets.length
      · rw [dif_pos h] at hx
        by_cases h2 : c < (self.proxysets[n]).length
        · rw [dif_pos h2] at hx
          cases hx
          exact ⟨_, List.getElem?_eq_getElem h, List.getElem?_eq_getElem h2⟩
        · rw [dif_neg h2] at hx
          cases hx
      · rw [dif_neg h] at hx
        cases hx
    · rintro ⟨set, hs, hx⟩
      have h : n < self.proxysets.length := by
        by_contra hn
        rw [List.getElem?_eq_none (Nat.le_of_not_lt hn)] at hs
        cases hs
      rw [List.getElem?_eq_getElem h] at hs
      cases hs
      have h2 : c < (self.proxysets[n]).length := by
        by_contra hn
        rw [List.getElem?_eq_none (Nat.le_of_not_lt hn)] at hx
        cases hx
      rw [List.getElem?_eq_getElem h2] at hx
      cases hx
      rw [dif_pos h, dif_pos h2]
  · rw [hvalid]
    unfold ProxySolution.proxy
    constructor
    · rintro ⟨x, hx⟩
      by_cases h : n < self.proxysets.length
      · rw [dif_pos h] at hx
        by_cases h2 : c < (self.proxysets[n]).length
        · exact ⟨h, h2⟩
        · rw [dif_neg h2] at hx
          cases hx
      · rw [dif_neg h] at hx
        cases hx
    · rintro ⟨h, h2⟩
      rw [dif_pos h, dif_pos h2]
      exact ⟨_, rfl⟩
  · rw [hvalid]
    unfold ProxySolution.proxy
    constructor
    · intro hx
      rintro ⟨h, h2⟩
      rw [dif_pos h, dif_pos h2] at hx
      cases hx
    · intro hn
      by_cases h : n < self.proxysets.length
      · rw [dif_pos h]
        by_cases h2 : c < (self.proxysets[n]).length
        · exact absurd ⟨h, h2⟩ hn
        · rw [dif_neg h2]
      · rw [dif_neg h]

end ProxySolutionProperties

section WeightModifierProperties

open CluE

/-- C9: `PointWeightModifier` reads and writes the weight of the point itself.
For every point `p` and weight `w`: after `setWeight(p, w)`, `getWeight(p)`
returns `w` and the coordinates of `p` are unchanged; `getWeight(p)` is the
stored weight of `p` and is not negative; a `clone()` of the modifier gives
the same results; and so does a call through the `WeightModifier<Point>`
interface. -/
theorem pointWeightModifier_get_set {D : Type} (m : PointWeightModifier) (p : Point D)
    (w : Nat) :
    m.getWeight (m.setWeight p w) = w
      ∧ (m.setWeight p w).coordinates = p.coordinates
      ∧ m.getWeight p = p.weight
      ∧ 0 ≤ m.getWeight p
      ∧ m.clone.getWeight p = m.getWeight p
      ∧ m.clone.setWeight p w = m.setWeight p w
      ∧ m.clone.getWeight (m.clone.setWeight p w) = w
      ∧ PointWeightModifier.weightModifier.getWeight m
          (PointWeightModifier.weightModifier.setWeight m p w) = w :=
  ⟨rfl, rfl, rfl, Nat.zero_le _, rfl, rfl, rfl, rfl⟩

end WeightModifierProperties

section IngestionProperties

open CluE

variable {D σ : Type}

/-- The point that `addPoint` builds from the memory at `array` for dimension
`d`: the values at offsets `0 .. d - 1`, with the default weight. -/
theorem addPoint_eq (E : Engine D σ) (self : BicoExternal σ) (array : Nat → D) :
    BicoExternal.addPoint E self array
      = match E.insert self._bico (Point.ofCoordinates ((List.range self._d).map array)) with
        | .ok bico => .ok ⟨self._d, bico⟩
        | .error e => .error e :=
  rfl

/-- A successful `addPoint` leaves `_d` as it is. -/
theorem addPoint_d (E : Engine D σ) (self self1 : BicoExternal σ) (array : Nat → D)
    (h : BicoExternal.addPoint E self array = .ok self1) : self1._d = self._d := by
  rw [addPoint_eq] at h
  split at h
  · cases h; rfl
  · cases h

/-- The loop test of `addData` in terms of rows: with `d > 0`, row `r` starts
below the bound `b` exactly when `r` is below `b` divided by `d`, rounded up. -/
theorem row_below_bound (b d r : Nat) (hd : 0 < d) : r * d < b ↔ r < (b + d - 1) / d := by
  rw [Nat.lt_iff_add_one_le, Nat.lt_iff_add_one_le, Nat.le_div_iff_mul_le hd, Nat.add_mul,
    Nat.one_mul]
  omega

/-- The loop of `addData` from row `r` on is a left fold of `addPoint` over the
remaining rows, which stops at the first exception. -/
theorem addDataLoop_rows (E : Engine D σ) (array : Nat → D) (n d : Nat) (hd : 0 < d)
    (c : Nat) : ∀ (r : Nat) (self : BicoExternal σ), self._d = d →
      r + c = (n * d % 4294967296 + d - 1) / d →
      BicoExternal.addDataLoop E array n (r * d) self
        = (List.range' r c).foldlM
            (fun s row => BicoExternal.addPoint E s (fun k => array (row * d + k))) self := by
  induction c with
  | zero =>
    intro r self hself hr
    have hstop : ¬ r * d < n * d % 4294967296 := by
      rw [row_below_bound _ _ _ hd]
      omega
    rw [BicoExternal.addDataLoop, hself, dif_neg hstop]
    rfl
  | succ c ih =>
    intro r self hself hr
    have hgo : r * d < n * d % 4294967296 := by
      rw [row_below_bound _ _ _ hd]
      omega
    rw [BicoExternal.addDataLoop]
    simp only [hself, dif_pos hgo, List.range', List.foldlM_cons, bind, Except.bind]
    split
    · next self1 heq =>
      rw [heq]
      have hd1 : self1._d = d := by rw [addPoint_d E self self1 _ heq, hself]
      have := ih (r + 1) self1 hd1 (by omega)
      rw [Nat.add_mul, Nat.one_mul] at this
      exact this
    · next e heq =>
      rw [heq]

/-- What `addData` does for every `n`: it runs `addPoint` on the rows
`0, 1, ...` in this order, as many as start below the wrapped bound
`n * _d mod 2 ^ 32`. -/
theorem addData_rows (E : Engine D σ) (self : BicoExternal σ) (array : Nat → D) (n : Nat) :
    BicoExternal.addData E self array n
      = (List.range ((n * self._d % 4294967296 + self._d - 1) / self._d)).foldlM
          (fun s row => BicoExternal.addPoint E s (fun k => array (row * self._d + k)))
          self := by
  rcases Nat.eq_zero_or_pos self._d with h0 | hpos
  · unfold BicoExternal.addData
    rw [BicoExternal.addDataLoop, h0]
    simp
    rfl
  · have := addDataLoop_rows E array n self._d hpos
      ((n * self._d % 4294967296 + self._d - 1) / self._d) 0 self rfl (by omega)
    rw [Nat.zero_mul] at this
    unfold BicoExternal.addData
    rw [this, List.range_eq_range']

/-- Without wrap-around (`n * _d < 2 ^ 32`, `_d ≥ 1`) `addData` runs `addPoint`
on each of the `n` rows, in increasing order. -/
theorem addData_rows_of_no_wrap (E : Engine D σ) (self : BicoExternal σ) (array : Nat → D)
    (n : Nat) (hd : 1 ≤ self._d) (hfit : n * self._d < 4294967296) :
    BicoExternal.addData E self array n
      = (List.range n).foldlM
          (fun s row => BicoExternal.addPoint E s (fun k => array (row * self._d + k)))
          self := by
  rw [addData_rows, Nat.mod_eq_of_lt hfit]
  have : (n * self._d + self._d - 1) / self._d = n := by
    apply Nat.div_eq_of_lt_le
    · omega
    · rw [Nat.add_mul, Nat.one_mul]; omega
  rw [this]

end IngestionProperties

section ExtractionClaims

open CluE

variable {D σ : Type}

/-- C1: result extraction by `BicoExternal::compute`.  Let the engine return a
solution whose first proxy set `set0` holds `s` proxies, each of dimension
`_d`, and let the caller's buffers hold at least `s` and `s * _d` cells (and
fewer than `2 ^ 64`, as every array does).  Then `compute` returns `s`, leaves
`sample_weights[i]` equal to the weight of proxy `i` for every `i < s`, and
leaves `points[i * _d + j]` equal to coordinate `j` of proxy `i` for every
`i < s` and `j < _d`. -/
theorem compute_extracts_first_proxy_set [NatCast D] (E : Engine D σ)
    (self : BicoExternal σ) (set0 : List (Point D)) (rest : List (List (Point D)))
    (sample_weights points : List D)
    (hsol : (E.compute self._bico).proxysets = set0 :: rest)
    (hdim : ∀ proxy ∈ set0, proxy.dimension = self._d)
    (hsw : set0.length ≤ sample_weights.length)
    (hpts : set0.length * self._d ≤ points.length)
    (hsize : points.length < 18446744073709551616) :
    ∃ sw pts, BicoExternal.compute E self sample_weights points
        = .ok (set0.length, sw, pts)
      ∧ ∀ i proxy, set0[i]? = some proxy →
          sw[i]? = some (proxy.getWeight : D)
            ∧ ∀ j, j < self._d →
              ∃ x, proxy.coordinates[j]? = some x ∧ pts[i * self._d + j]? = some x := by
  obtain ⟨sw, pts, hrun, _, _, hin, _, _⟩ :=
    compute_run E self set0 rest sample_weights points hsol hdim hsw hpts hsize
  refine ⟨sw, pts, hrun, ?_⟩
  intro i proxy hget
  obtain ⟨hw, hc⟩ := hin i proxy hget
  refine ⟨hw, ?_⟩
  intro j hj
  have hmem : proxy ∈ set0 := List.getElem?_mem hget
  have hlen : j < proxy.coordinates.length := by
    have := hdim proxy hmem
    unfold Point.dimension at this
    omega
  exact ⟨proxy.coordinates[j], List.getElem?_eq_getElem hlen,
    by rw [hc j hj]; exact List.getElem?_eq_getElem hlen⟩

/-- Witness for C1: the modelled engine of dimension 3 holding the one leaf
`(1, 2, 3)` of weight 1, with buffers of one and three cells. -/
theorem compute_extracts_first_proxy_set_witness :
    ((Bico.engine (fun _ _ => 1)).compute
          (⟨3, ⟨3, 1, 0, ⟨⟩, ⟨⟩, ⟨4, 1, fun _ => 1, .node ⟨1, 1, [1, 2, 3]⟩ .nil .nil⟩⟩⟩
            : BicoExternal Bico)._bico).proxysets = [⟨[1, 2, 3], 1⟩] :: []
      ∧ (∀ proxy ∈ [(⟨[1, 2, 3], 1⟩ : Point ℚ)], proxy.dimension = 3)
      ∧ [(⟨[1, 2, 3], 1⟩ : Point ℚ)].length ≤ [(0 : ℚ)].length
      ∧ [(⟨[1, 2, 3], 1⟩ : Point ℚ)].length * 3 ≤ [(0 : ℚ), 0, 0].length
      ∧ [(0 : ℚ), 0, 0].length < 18446744073709551616
      ∧ ∃ sw pts, BicoExternal.compute (Bico.engine (fun _ _ => 1))
            (⟨3, ⟨3, 1, 0, ⟨⟩, ⟨⟩, ⟨4, 1, fun _ => 1, .node ⟨1, 1, [1, 2, 3]⟩ .nil .nil⟩⟩⟩
              : BicoExternal Bico) [0] [0, 0, 0]
            = .ok ([(⟨[1, 2, 3], 1⟩ : Point ℚ)].length, sw, pts)
          ∧ ∀ i proxy, [(⟨[1, 2, 3], 1⟩ : Point ℚ)][i]? = some proxy →
              sw[i]? = some (proxy.getWeight : ℚ)
                ∧ ∀ j, j < 3 →
                  ∃ x, proxy.coordinates[j]? = some x ∧ pts[i * 3 + j]? = some x := by
  have hsol : ((Bico.engine (fun _ _ => 1)).compute
          (⟨3, ⟨3, 1, 0, ⟨⟩, ⟨⟩, ⟨4, 1, fun _ => 1, .node ⟨1, 1, [1, 2, 3]⟩ .nil .nil⟩⟩⟩
            : BicoExternal Bico)._bico).proxysets = [⟨[1, 2, 3], 1⟩] :: [] := by
    simp [Bico.engine, Bico.compute, Bico.proxyOf, Nodes.leaves, Nodes.isNil,
      ClusteringFeature.representative, PointWeightModifier.setWeight, Point.setWeight,
      Point.ofCoordinates]
  have hdim : ∀ proxy ∈ [(⟨[1, 2, 3], 1⟩ : Point ℚ)], proxy.dimension = 3 := by
    intro proxy hmem
    rw [List.mem_singleton] at hmem
    rw [hmem]
    rfl
  exact ⟨hsol, hdim, by decide, by decide, by decide,
    compute_extracts_first_proxy_set (Bico.engine (fun _ _ => 1)) _ _ _ [0] [0, 0, 0]
      hsol hdim (by decide) (by decide) (by decide)⟩

/-- C5: buffers of the stated sizes suffice for `BicoExternal::compute`.  Under
the assumptions of C1 (a first proxy set of `s` proxies of dimension `_d`, as
an engine of dimension `_d` returns it, and buffers of at least `s` and
`s * _d` cells) no read or write of `compute` leaves its array: the call ends
without a memory fault, both buffers keep their length, and every cell of
`sample_weights` from index `s` on and every cell of `points` from index
`s * _d` on is untouched. -/
theorem compute_stays_inside_buffers [NatCast D] (E : Engine D σ)
    (self : BicoExternal σ) (set0 : List (Point D)) (rest : List (List (Point D)))
    (sample_weights points : List D)
    (hsol : (E.compute self._bico).proxysets = set0 :: rest)
    (hdim : ∀ proxy ∈ set0, proxy.dimension = self._d)
    (hsw : set0.length ≤ sample_weights.length)
    (hpts : set0.length * self._d ≤ points.length)
    (hsize : points.length < 18446744073709551616) :
    ∃ sw pts, BicoExternal.compute E self sample_weights points
        = .ok (set0.length, sw, pts)
      ∧ sw.length = sample_weights.length
      ∧ pts.length = points.length
      ∧ (∀ i, set0.length ≤ i → sw[i]? = sample_weights[i]?)
      ∧ (∀ k, set0.length * self._d ≤ k → pts[k]? = points[k]?) := by
  obtain ⟨sw, pts, hrun, hlsw, hlpts, _, hsw_out, hpts_out⟩ :=
    compute_run E self set0 rest sample_weights points hsol hdim hsw hpts hsize
  exact ⟨sw, pts, hrun, hlsw, hlpts, hsw_out, hpts_out⟩

/-- Witness for C5: the recording engine of dimension 2 holding two points,
with buffers of exactly two and four cells. -/
theorem compute_stays_inside_buffers_witness :
    ((Engine.recorder : Engine ℤ (List (Point ℤ))).compute
          (⟨2, [⟨[5, 6], 1⟩, ⟨[7, 8], 1⟩]⟩ : BicoExternal (List (Point ℤ)))._bico).proxysets
        = [⟨[5, 6], 1⟩, ⟨[7, 8], 1⟩] :: []
      ∧ (∀ proxy ∈ [(⟨[5, 6], 1⟩ : Point ℤ), ⟨[7, 8], 1⟩], proxy.dimension = 2)
      ∧ [(⟨[5, 6], 1⟩ : Point ℤ), ⟨[7, 8], 1⟩].length ≤ [(0 : ℤ), 0].length
      ∧ [(⟨[5, 6], 1⟩ : Point ℤ), ⟨[7, 8], 1⟩].length * 2 ≤ [(0 : ℤ), 0, 0, 0].length
      ∧ [(0 : ℤ), 0, 0, 0].length < 18446744073709551616
      ∧ ∃ sw pts, BicoExternal.compute (Engine.recorder : Engine ℤ (List (Point ℤ)))
            (⟨2, [⟨[5, 6], 1⟩, ⟨[7, 8], 1⟩]⟩ : BicoExternal (List (Point ℤ)))
            [0, 0] [0, 0, 0, 0]
            = .ok ([(⟨[5, 6], 1⟩ : Point ℤ), ⟨[7, 8], 1⟩].length, sw, pts)
          ∧ sw.length = [(0 : ℤ), 0].length
          ∧ pts.length = [(0 : ℤ), 0, 0, 0].length
          ∧ (∀ i, [(⟨[5, 6], 1⟩ : Point ℤ), ⟨[7, 8], 1⟩].length ≤ i
              → sw[i]? = [(0 : ℤ), 0][i]?)
          ∧ (∀ k, [(⟨[5, 6], 1⟩ : Point ℤ), ⟨[7, 8], 1⟩].length * 2 ≤ k
              → pts[k]? = [(0 : ℤ), 0, 0, 0][k]?) := by
  have hdim : ∀ proxy ∈ [(⟨[5, 6], 1⟩ : Point ℤ), ⟨[7, 8], 1⟩], proxy.dimension = 2 := by
    decide
  exact ⟨rfl, hdim, by decide, by decide, by decide,
    compute_stays_inside_buffers (Engine.recorder : Engine ℤ (List (Point ℤ))) _ _ _
      [0, 0] [0, 0, 0, 0] rfl hdim (by decide) (by decide) (by decide)⟩

end ExtractionClaims

section EngineClaims

open CluE

/-- The modelled constructor, reached through `init`, throws
`InvalidConfiguration` when an argument is out of range. -/
theorem init_invalid (thresholds : Int → Nat → ℚ) (d k p m : Nat) (seed : Int)
    (h : d = 0 ∨ m < 1 ∨ k = 0) :
    init (Bico.engine thresholds) d k p m seed = .error (.typed .InvalidConfiguration) := by
  unfold init BicoExternal.ctor
  simp only [Bico.engine, Bico.create, if_pos h]

/-- C6: invalid constructor arguments are rejected at construction.  For every
argument tuple with `d = 0`, `k = 0` or `m < 1`, `init` fails with an
`InvalidConfiguration` error and returns no engine object. -/
theorem init_rejects_invalid_configuration (thresholds : Int → Nat → ℚ) (d k p m : Nat)
    (seed : Int) (h : d = 0 ∨ k = 0 ∨ m < 1) :
    init (Bico.engine thresholds) d k p m seed = .error (.typed .InvalidConfiguration)
      ∧ ∀ engine, init (Bico.engine thresholds) d k p m seed ≠ .ok engine := by
  have hbad : d = 0 ∨ m < 1 ∨ k = 0 := by
    rcases h with h | h | h
    · exact Or.inl h
    · exact Or.inr (Or.inr h)
    · exact Or.inr (Or.inl h)
  have hrun := init_invalid thresholds d k p m seed hbad
  refine ⟨hrun, ?_⟩
  intro engine hok
  rw [hrun] at hok
  cases hok

/-- Witness for C6: dimension `0` with otherwise valid arguments. -/
theorem init_rejects_invalid_configuration_witness :
    ((0 : Nat) = 0 ∨ (1 : Nat) = 0 ∨ (4 : Nat) < 1)
      ∧ init (Bico.engine (fun _ _ => 1)) 0 1 1 4 0
          = .error (.typed .InvalidConfiguration)
      ∧ ∀ engine, init (Bico.engine (fun _ _ => 1)) 0 1 1 4 0 ≠ .ok engine :=
  ⟨Or.inl rfl,
    init_rejects_invalid_configuration (fun _ _ => 1) 0 1 1 4 0 (Or.inl rfl)⟩

/-- What `init` returns for valid arguments: an engine object of dimension `d`
whose tree has no node. -/
theorem init_ok (thresholds : Int → Nat → ℚ) (d k p m : Nat) (seed : Int)
    (engine : BicoExternal Bico)
    (h : init (Bico.engine thresholds) d k p m seed = .ok engine) :
    engine = ⟨d, ⟨d, k, seed, ⟨⟩, ⟨⟩, ⟨m, p, thresholds seed, .nil⟩⟩⟩ := by
  unfold init BicoExternal.ctor at h
  simp only [Bico.engine, Bico.create] at h
  split at h
  · next heq =>
    split at heq
    · cases heq
    · cases heq
      cases h
      rfl
  · cases h

/-- The read `sol->proxysets[0]` needs the engine to return a first proxy set:
on a solution as `ProxySolution()` constructs it, without any proxy set,
`BicoExternal::compute` reads outside the vector. -/
theorem compute_needs_first_proxy_set {D σ : Type} [NatCast D] (E : Engine D σ)
    (self : BicoExternal σ) (sample_weights points : List D)
    (h : (E.compute self._bico).proxysets = []) :
    BicoExternal.compute E self sample_weights points = .error .outOfBounds := by
  unfold BicoExternal.compute
  simp only [h]
  rfl

/-- C7: `compute` before any insert.  On an engine object that `init` has just
created, `BicoExternal::compute` returns `0`, raises nothing, and leaves both
buffers as they are, whatever their length: it writes no cell. -/
theorem compute_before_any_insert (thresholds : Int → Nat → ℚ) (d k p m : Nat) (seed : Int)
    (engine : BicoExternal Bico) (sample_weights points : List ℚ)
    (h : init (Bico.engine thresholds) d k p m seed = .ok engine) :
    BicoExternal.compute (Bico.engine thresholds) engine sample_weights points
      = .ok (0, sample_weights, points) := by
  rw [init_ok thresholds d k p m seed engine h]
  rfl

/-- Witness for C7: the engine created by `init(2, 1, 1, 4, 0)`, computed into
buffers without any cell. -/
theorem compute_before_any_insert_witness :
    init (Bico.engine (fun _ _ => 1)) 2 1 1 4 0
        = .ok ⟨2, ⟨2, 1, 0, ⟨⟩, ⟨⟩, ⟨4, 1, fun _ => 1, .nil⟩⟩⟩
      ∧ BicoExternal.compute (Bico.engine (fun _ _ => 1))
          ⟨2, ⟨2, 1, 0, ⟨⟩, ⟨⟩, ⟨4, 1, fun _ => 1, .nil⟩⟩⟩ [] []
        = .ok (0, [], []) :=
  ⟨rfl, compute_before_any_insert (fun _ _ => 1) 2 1 1 4 0 _ [] [] rfl⟩

end EngineClaims

section IngestionClaims

open CluE

variable {D : Type}

/-- The recording engine under a fold of `addPoint` over rows: every row adds
its point to the record. -/
theorem recorder_rows [Zero D] (d : Nat) (array : Nat → D) (rows : List Nat) :
    ∀ log : List (Point D),
      rows.foldlM
          (fun s row => BicoExternal.addPoint Engine.recorder s (fun k => array (row * d + k)))
          (⟨d, log⟩ : BicoExternal (List (Point D)))
        = .ok ⟨d, log ++ rows.map
            (fun row => Point.ofCoordinates ((List.range d).map (fun k => array (row * d + k))))⟩ := by
  induction rows with
  | nil => intro log; simp [pure, Except.pure]
  | cons row rows ih =>
    intro log
    rw [List.foldlM_cons]
    have hstep : BicoExternal.addPoint Engine.recorder
        (⟨d, log⟩ : BicoExternal (List (Point D))) (fun k => array (row * d + k))
        = .ok ⟨d, log ++ [Point.ofCoordinates ((List.range d).map (fun k => array (row * d + k)))]⟩ :=
      rfl
    rw [hstep]
    simp only [bind, Except.bind]
    rw [ih]
    simp

/-- Without wrap-around (`n * d < 2 ^ 32`, `d ≥ 1`) `addData` hands the `n` rows
to the engine in increasing order: the recording engine ends with its record
extended by the points of rows `0, 1, ..., n - 1`, row `i` being
`array[i * d .. i * d + d - 1]`. -/
theorem addData_feeds_rows_in_order [Zero D] (d : Nat) (array : Nat → D) (n : Nat)
    (log : List (Point D)) (hd : 1 ≤ d) (hfit : n * d < 4294967296) :
    BicoExternal.addData Engine.recorder (⟨d, log⟩ : BicoExternal (List (Point D))) array n
      = .ok ⟨d, log ++ (List.range n).map
          (fun row => Point.ofCoordinates ((List.range d).map (fun k => array (row * d + k))))⟩ := by
  rw [addData_rows_of_no_wrap Engine.recorder ⟨d, log⟩ array n hd hfit]
  exact recorder_rows d array (List.range n) log

/-- C2 (evaluation at the failing input): with `_d = 2` and `n = 2147483648` the
bound `n * _d` wraps to `0`, the loop body never runs and `addData` returns
with the engine untouched, for every engine and every array.  On the recording
engine the record stays empty: no row has been handed to `addPoint`, although
the array holds `2147483648` rows. -/
theorem addData_wrapped_bound_feeds_no_row [Zero D] :
    (∀ (σ : Type) (E : Engine D σ) (bico : σ) (array : Nat → D),
        BicoExternal.addData E ⟨2, bico⟩ array 2147483648 = .ok ⟨2, bico⟩)
      ∧ (∀ array : Nat → D,
        BicoExternal.addData Engine.recorder ⟨2, []⟩ array 2147483648 = .ok ⟨2, []⟩)
      ∧ (2147483648 * 2) % 4294967296 = 0 := by
  have hall : ∀ (σ : Type) (E : Engine D σ) (bico : σ) (array : Nat → D),
      BicoExternal.addData E ⟨2, bico⟩ array 2147483648 = .ok ⟨2, bico⟩ := by
    intro σ E bico array
    have hstop : ¬ 0 < 2147483648 * (⟨2, bico⟩ : BicoExternal σ)._d % 4294967296 := by
      show ¬ 0 < 2147483648 * 2 % 4294967296
      decide
    unfold BicoExternal.addData
    rw [BicoExternal.addDataLoop, dif_neg hstop]
  exact ⟨hall, fun array => hall _ _ _ array, by decide⟩

/-- C8: single-point ingestion.  For every dimension `d` and every array there
is one point, of exactly `d` coordinates equal to `array[0 .. d - 1]` in order
(and of weight 1), such that `addPoint(array)` on any engine object of
dimension `d` is one `operator<<` of the engine on that point; and `addData`
does nothing but a sequence of such `addPoint` calls, row after row.  So every
point that reaches the engine through `addPoint` or `addData` has dimension
`d`. -/
theorem addPoint_forwards_one_point (d : Nat) (array : Nat → D) :
    ∃ point : Point D,
      point.dimension = d
        ∧ point.weight = 1
        ∧ (∀ j, j < d → point.coordinates[j]? = some (array j))
        ∧ (∀ (σ : Type) (E : Engine D σ) (bico : σ),
            BicoExternal.addPoint E ⟨d, bico⟩ array
              = match E.insert bico point with
                | .ok bico1 => .ok ⟨d, bico1⟩
                | .error e => .error e)
        ∧ (∀ (σ : Type) (E : Engine D σ) (bico : σ) (n : Nat),
            ∃ rows, BicoExternal.addData E ⟨d, bico⟩ array n
              = (List.range rows).foldlM
                  (fun s row => BicoExternal.addPoint E s (fun k => array (row * d + k)))
                  ⟨d, bico⟩) := by
  refine ⟨Point.ofCoordinates ((List.range d).map array), ?_, rfl, ?_, ?_, ?_⟩
  · simp [Point.dimension, Point.ofCoordinates]
  · intro j hj
    simp [Point.ofCoordinates, List.getElem?_range hj]
  · intro σ E bico
    rfl
  · intro σ E bico n
    exact ⟨_, addData_rows E ⟨d, bico⟩ array n⟩

end IngestionClaims

section EngineModelProperties

open CluE

/-- The weight of a child list is the sum of the weights of its leaves. -/
theorem Nodes.weight_eq_sum (nodes : Nodes) :
    nodes.weight = (nodes.leaves.map (fun cf => cf.totalWeight)).sum := by
  induction nodes with
  | nil => rfl
  | node cf children next ihc ihn =>
    simp only [Nodes.weight, Nodes.leaves, List.map_append, List.sum_append, ihn]
    split
    · simp
    · rw [ihc]

/-- Every leaf aggregate of a tree whose aggregates have `d` coordinates has
`d` coordinates. -/
theorem Nodes.allDim_leaves (d : Nat) (nodes : Nodes) (h : nodes.allDim d = true) :
    ∀ cf ∈ nodes.leaves, cf.weightedSum.length = d := by
  induction nodes with
  | nil => intro cf hmem; cases hmem
  | node cf children next ihc ihn =>
    simp only [Nodes.allDim, Bool.and_eq_true, decide_eq_true_eq] at h
    intro cf1 hmem
    simp only [Nodes.leaves, List.mem_append] at hmem
    rcases hmem with hmem | hmem
    · split at hmem
      · rw [List.mem_singleton] at hmem
        rw [hmem]; exact h.1.1
      · exact ihc h.1.2 cf1 hmem
    · exact ihn h.2 cf1 hmem

/-- The leaves of two sibling lists put together weigh as much as both. -/
theorem Nodes.weight_append (a b : Nodes) : (a.append b).weight = a.weight + b.weight := by
  induction a with
  | nil => simp [Nodes.append, Nodes.weight]
  | node cf children next _ ihn =>
    simp only [Nodes.append, Nodes.weight, ihn]
    omega

/-- Two sibling lists put together are empty only if both are. -/
theorem Nodes.isNil_append (a b : Nodes) : (a.append b).isNil = (a.isNil && b.isNil) := by
  cases a <;> simp [Nodes.append, Nodes.isNil]

/-- Putting two sibling lists together keeps the number of coordinates of every
aggregate. -/
theorem Nodes.allDim_append (d : Nat) (a b : Nodes) (ha : a.allDim d = true)
    (hb : b.allDim d = true) : (a.append b).allDim d = true := by
  induction a with
  | nil => simpa [Nodes.append] using hb
  | node cf children next _ ihn =>
    simp only [Nodes.allDim, Bool.and_eq_true, decide_eq_true_eq] at ha
    simp only [Nodes.append, Nodes.allDim, Bool.and_eq_true, decide_eq_true_eq]
    exact ⟨⟨ha.1.1, ha.1.2⟩, ihn ha.2⟩

/-- The descent of `insert` never leaves a child list empty. -/
theorem Nodes.insertAt_isNil (metric : SquaredL2Metric) (wm : PointWeightModifier)
    (radius : Nat → ℚ) (p : Nat) (point : Point ℚ) (level : Nat) (tgt : Option Nat)
    (nodes : Nodes) : (nodes.insertAt metric wm radius p point level tgt).isNil = false := by
  cases nodes with
  | nil => simp [Nodes.insertAt, Nodes.isNil]
  | node cf children next =>
    rcases tgt with _ | i
    · simp [Nodes.insertAt, Nodes.isNil]
    · cases i with
      | zero =>
        simp only [Nodes.insertAt]
        split <;> rfl
      | succ i => simp [Nodes.insertAt, Nodes.isNil]

/-- The descent of `insert` adds the weight of the point to the leaves. -/
theorem Nodes.insertAt_weight (metric : SquaredL2Metric) (wm : PointWeightModifier)
    (radius : Nat → ℚ) (p : Nat) (point : Point ℚ) (nodes : Nodes) :
    ∀ (level : Nat) (tgt : Option Nat),
      (nodes.insertAt metric wm radius p point level tgt).weight
        = nodes.weight + wm.getWeight point := by
  induction nodes with
  | nil =>
    intro level tgt
    simp [Nodes.insertAt, Nodes.weight, Nodes.isNil, ClusteringFeature.ofPoint]
  | node cf children next ihc ihn =>
    intro level tgt
    rcases tgt with _ | i
    · simp only [Nodes.insertAt, Nodes.weight, ihn level none]
      omega
    · cases i with
      | zero =>
        simp only [Nodes.insertAt]
        by_cases hleaf : children.isNil = true
        · rw [if_pos hleaf]
          have hnil : Nodes.nil.isNil = true := rfl
          simp only [Nodes.weight, hleaf, hnil, if_true, ClusteringFeature.addPoint,
            ClusteringFeature.merge, ClusteringFeature.ofPoint]
          omega
        · rw [if_neg hleaf]
          simp only [Nodes.weight, Nodes.insertAt_isNil, hleaf, Bool.false_eq_true, if_false,
            ihc]
          omega
      | succ i =>
        simp only [Nodes.insertAt, Nodes.weight, ihn level (some i)]
        omega

/-- The descent of `insert` with a point of `d` coordinates keeps every
aggregate at `d` coordinates. -/
theorem Nodes.insertAt_allDim (metric : SquaredL2Metric) (wm : PointWeightModifier)
    (radius : Nat → ℚ) (p : Nat) (point : Point ℚ) (d : Nat) (hp : point.dimension = d)
    (nodes : Nodes) :
    ∀ (level : Nat) (tgt : Option Nat), nodes.allDim d = true →
      (nodes.insertAt metric wm radius p point level tgt).allDim d = true := by
  have hnew : (ClusteringFeature.ofPoint wm point).weightedSum.length = d := by
    simp [ClusteringFeature.ofPoint, ← hp, Point.dimension]
  induction nodes with
  | nil =>
    intro level tgt _
    simp [Nodes.insertAt, Nodes.allDim, hnew]
  | node cf children next ihc ihn =>
    intro level tgt h
    simp only [Nodes.allDim, Bool.and_eq_true, decide_eq_true_eq] at h
    have hadd : (cf.addPoint wm point).weightedSum.length = d := by
      simp [ClusteringFeature.addPoint, ClusteringFeature.merge, hnew, h.1.1]
    rcases tgt with _ | i
    · simp only [Nodes.insertAt, Nodes.allDim, Bool.and_eq_true, decide_eq_true_eq]
      exact ⟨⟨h.1.1, h.1.2⟩, ihn level none h.2⟩
    · cases i with
      | zero =>
        simp only [Nodes.insertAt]
        split
        · simp only [Nodes.allDim, Bool.and_eq_true, decide_eq_true_eq]
          exact ⟨⟨hadd, trivial⟩, h.2⟩
        · simp only [Nodes.allDim, Bool.and_eq_true, decide_eq_true_eq]
          exact ⟨⟨hadd, ihc _ _ h.1.2⟩, h.2⟩
      | succ i =>
        simp only [Nodes.insertAt, Nodes.allDim, Bool.and_eq_true, decide_eq_true_eq]
        exact ⟨⟨h.1.1, h.1.2⟩, ihn level (some i) h.2⟩

/-- A partner found by `rebuild` is of the requested kind, and taking it out of
its sibling list moves its weight and nothing else. -/
theorem Nodes.takePartner_some (metric : SquaredL2Metric) (radius : ℚ)
    (cf : ClusteringFeature) (leaf : Bool) (d : Nat) (nodes : Nodes) :
    ∀ cf2 children2 rest,
      nodes.takePartner metric radius cf leaf = some (cf2, children2, rest) →
      children2.isNil = leaf
        ∧ nodes.weight
          = (if children2.isNil then cf2.totalWeight else children2.weight) + rest.weight
        ∧ (nodes.allDim d = true →
          cf2.weightedSum.length = d ∧ children2.allDim d = true ∧ rest.allDim d = true) := by
  induction nodes with
  | nil =>
    intro cf2 children2 rest h
    simp [Nodes.takePartner] at h
  | node cf1 children1 next _ ihn =>
    intro cf2 children2 rest h
    simp only [Nodes.takePartner] at h
    split at h
    · next hcond =>
      cases h
      refine ⟨hcond.1, ?_, ?_⟩
      · simp only [Nodes.weight]
      · intro hd
        simp only [Nodes.allDim, Bool.and_eq_true, decide_eq_true_eq] at hd
        exact ⟨hd.1.1, hd.1.2, hd.2⟩
    · split at h
      · cases h
      · next cf3 children3 rest3 heq =>
        cases h
        obtain ⟨hkind, hw, hdim⟩ := ihn cf2 children2 rest3 heq
        refine ⟨hkind, ?_, ?_⟩
        · simp only [Nodes.weight, hw]
          omega
        · intro hd
          simp only [Nodes.allDim, Bool.and_eq_true, decide_eq_true_eq] at hd
          obtain ⟨h1, h2, h3⟩ := hdim hd.2
          refine ⟨h1, h2, ?_⟩
          simp only [Nodes.allDim, Bool.and_eq_true, decide_eq_true_eq]
          exact ⟨⟨hd.1.1, hd.1.2⟩, h3⟩

/-- One merge of `rebuild` keeps the weight of the leaves and the number of
coordinates of every aggregate. -/
theorem Nodes.mergeStep_keeps (metric : SquaredL2Metric) (radius : Nat → ℚ) (d : Nat)
    (nodes : Nodes) :
    ∀ (level : Nat) (merged : Nodes), nodes.mergeStep metric radius level = some merged →
      merged.weight = nodes.weight ∧ (nodes.allDim d = true → merged.allDim d = true) := by
  induction nodes with
  | nil =>
    intro level merged h
    simp [Nodes.mergeStep] at h
  | node cf children next ihc ihn =>
    intro level merged h
    simp only [Nodes.mergeStep] at h
    split at h
    · next cf2 children2 rest heq =>
      cases h
      obtain ⟨hkind, hw, hdim⟩ :=
        Nodes.takePartner_some metric (radius level) cf children.isNil d next cf2 children2
          rest heq
      refine ⟨?_, ?_⟩
      · simp only [Nodes.weight, Nodes.isNil_append, Nodes.weight_append, hw, hkind,
          Bool.and_self, ClusteringFeature.merge]
        split <;> omega
      · intro hd
        simp only [Nodes.allDim, Bool.and_eq_true, decide_eq_true_eq] at hd
        obtain ⟨h1, h2, h3⟩ := hdim hd.2
        simp only [Nodes.allDim, Bool.and_eq_true, decide_eq_true_eq]
        refine ⟨⟨?_, Nodes.allDim_append d _ _ hd.1.2 h2⟩, h3⟩
        simp [ClusteringFeature.merge, hd.1.1, h1]
    · split at h
      · next children1 heq =>
        cases h
        obtain ⟨hw, hdim⟩ := ihc (level + 1) children1 heq
        have hnil : children1.isNil = children.isNil := by
          cases children with
          | nil => simp [Nodes.mergeStep] at heq
          | node c1 ch1 n1 =>
            cases children1 with
            | nil =>
              simp only [Nodes.mergeStep] at heq
              split at heq
              · cases heq
              · split at heq
                · cases heq
                · split at heq
                  · cases heq
                  · cases heq
            | node _ _ _ => rfl
        refine ⟨?_, ?_⟩
        · simp only [Nodes.weight, hnil, hw]
        · intro hd
          simp only [Nodes.allDim, Bool.and_eq_true, decide_eq_true_eq] at hd
          simp only [Nodes.allDim, Bool.and_eq_true, decide_eq_true_eq]
          exact ⟨⟨hd.1.1, hdim hd.1.2⟩, hd.2⟩
      · split at h
        · next next1 heq =>
          cases h
          obtain ⟨hw, hdim⟩ := ihn level next1 heq
          refine ⟨?_, ?_⟩
          · simp only [Nodes.weight, hw]
          · intro hd
            simp only [Nodes.allDim, Bool.and_eq_true, decide_eq_true_eq] at hd
            simp only [Nodes.allDim, Bool.and_eq_true, decide_eq_true_eq]
            exact ⟨⟨hd.1.1, hd.1.2⟩, hdim hd.2⟩
        · cases h

/-- The merge loop of `rebuild` keeps the weight of the leaves and the number
of coordinates of every aggregate. -/
theorem Nodes.reaggregate_keeps (metric : SquaredL2Metric) (radius : Nat → ℚ) (m d : Nat)
    (rounds : Nat) :
    ∀ nodes : Nodes,
      (nodes.reaggregate metric radius m rounds).weight = nodes.weight
        ∧ (nodes.allDim d = true →
          (nodes.reaggregate metric radius m rounds).allDim d = true) := by
  induction rounds with
  | zero => intro nodes; exact ⟨rfl, fun h => h⟩
  | succ rounds ih =>
    intro nodes
    simp only [Nodes.reaggregate]
    split
    · exact ⟨rfl, fun h => h⟩
    · split
      · exact ⟨rfl, fun h => h⟩
      · next merged heq =>
        obtain ⟨hw, hdim⟩ := Nodes.mergeStep_keeps metric radius d nodes 0 merged heq
        obtain ⟨hw1, hdim1⟩ := ih merged
        exact ⟨by rw [hw1, hw], fun h => hdim1 (hdim h)⟩

/-- Modelled `insert` of the tree: the leaves gain the weight of the point, a
rebuild included, and aggregates keep `d` coordinates. -/
theorem CoresetTree.insert_keeps (metric : SquaredL2Metric) (wm : PointWeightModifier)
    (tree : CoresetTree) (point : Point ℚ) (d : Nat) (hp : point.dimension = d) :
    (tree.insert metric wm point).root.weight = tree.root.weight + wm.getWeight point
      ∧ (tree.root.allDim d = true → (tree.insert metric wm point).root.allDim d = true) := by
  unfold CoresetTree.insert
  simp only
  split
  · simp only [CoresetTree.rebuild]
    refine ⟨?_, ?_⟩
    · rw [(Nodes.reaggregate_keeps metric _ _ d _ _).1, Nodes.insertAt_weight]
    · intro h
      exact (Nodes.reaggregate_keeps metric _ _ d _ _).2
        (Nodes.insertAt_allDim metric wm _ _ point d hp _ _ _ h)
  · exact ⟨Nodes.insertAt_weight _ _ _ _ _ _ _ _,
      fun h => Nodes.insertAt_allDim metric wm _ _ point d hp _ _ _ h⟩

end EngineModelProperties

section WeightConservation

open CluE

/-- A new engine object has taken in no point. -/
theorem init_holds (thresholds : Int → Nat → ℚ) (d k p m : Nat) (seed : Int)
    (engine : BicoExternal Bico)
    (h : init (Bico.engine thresholds) d k p m seed = .ok engine) : engine.Holds 0 := by
  have hd : 1 ≤ d := by
    rcases Nat.eq_zero_or_pos d with h0 | h0
    · have := init_invalid thresholds d k p m seed (Or.inl h0)
      rw [this] at h
      cases h
    · exact h0
  rw [init_ok thresholds d k p m seed engine h]
  exact ⟨hd, rfl, rfl, rfl⟩

/-- On the modelled engine `addPoint` always succeeds, and the leaves gain
weight 1. -/
theorem addPoint_holds (thresholds : Int → Nat → ℚ) (self : BicoExternal Bico) (N : Nat)
    (array : Nat → ℚ) (h : self.Holds N) :
    ∃ self1, BicoExternal.addPoint (Bico.engine thresholds) self array = .ok self1
      ∧ self1._d = self._d ∧ self1.Holds (N + 1) := by
  obtain ⟨hd, hbd, hdim, hw⟩ := h
  have hpd : (Point.ofCoordinates ((List.range self._d).map array)).dimension = self._d := by
    simp [Point.dimension, Point.ofCoordinates]
  have hpd1 : ¬ (Point.ofCoordinates ((List.range self._d).map array)).dimension
      ≠ self._bico.d := by
    rw [hpd, hbd]
    exact fun hne => hne rfl
  obtain ⟨hw1, hdim1⟩ := CoresetTree.insert_keeps self._bico.metric self._bico.weightModifier
    self._bico.tree (Point.ofCoordinates ((List.range self._d).map array)) self._d hpd
  refine ⟨⟨self._d, { self._bico with
      tree := self._bico.tree.insert self._bico.metric self._bico.weightModifier
        (Point.ofCoordinates ((List.range self._d).map array)) }⟩, ?_, rfl, hd, hbd,
    hdim1 hdim, ?_⟩
  · rw [addPoint_eq]
    simp only [Bico.engine, Bico.insert, if_neg hpd1]
  · rw [hw1, hw]
    rfl

/-- On the modelled engine a fold of `addPoint` over rows succeeds, and the
leaves gain weight 1 for every row. -/
theorem addPoint_rows_holds (thresholds : Int → Nat → ℚ) (d : Nat) (array : Nat → ℚ)
    (rows : List Nat) :
    ∀ (self : BicoExternal Bico) (N : Nat), self._d = d → self.Holds N →
      ∃ self1, rows.foldlM
          (fun s row => BicoExternal.addPoint (Bico.engine thresholds) s
            (fun k => array (row * d + k))) self = .ok self1
        ∧ self1._d = d ∧ self1.Holds (N + rows.length) := by
  induction rows with
  | nil =>
    intro self N hd h
    exact ⟨self, rfl, hd, h⟩
  | cons row rows ih =>
    intro self N hd h
    obtain ⟨self1, hstep, hd1, h1⟩ :=
      addPoint_holds thresholds self N (fun k => array (row * d + k)) h
    obtain ⟨self2, hrest, hd2, h2⟩ := ih self1 (N + 1) (by rw [hd1, hd]) h1
    refine ⟨self2, ?_, hd2, ?_⟩
    · rw [List.foldlM_cons, hstep]
      exact hrest
    · rw [List.length_cons]
      have : N + (rows.length + 1) = N + 1 + rows.length := by omega
      rw [this]
      exact h2

/-- On the modelled engine, `addData` with a bound that does not wrap takes in
all `n` points. -/
theorem addData_holds (thresholds : Int → Nat → ℚ) (self : BicoExternal Bico) (N : Nat)
    (array : Nat → ℚ) (n : Nat) (h : self.Holds N) (hfit : n * self._d < 4294967296) :
    ∃ self1, BicoExternal.addData (Bico.engine thresholds) self array n = .ok self1
      ∧ self1._d = self._d ∧ self1.Holds (N + n) := by
  rw [addData_rows_of_no_wrap (Bico.engine thresholds) self array n h.1 hfit]
  obtain ⟨self1, hrun, hd1, h1⟩ :=
    addPoint_rows_holds thresholds self._d array (List.range n) self N rfl h
  rw [List.length_range] at h1
  exact ⟨self1, hrun, hd1, h1⟩

/-- The weights that `compute` writes for an engine object that has taken in `N`
points sum to `N`. -/
theorem compute_holds (thresholds : Int → Nat → ℚ) (self : BicoExternal Bico) (N : Nat)
    (sample_weights points : List ℚ) (h : self.Holds N)
    (hsw : self._bico.tree.root.leaves.length ≤ sample_weights.length)
    (hpts : self._bico.tree.root.leaves.length * self._d ≤ points.length)
    (hsize : points.length < 18446744073709551616) :
    ∃ s sw pts, BicoExternal.compute (Bico.engine thresholds) self sample_weights points
        = .ok (s, sw, pts)
      ∧ s = self._bico.tree.root.leaves.length
      ∧ (sw.take s).sum = (N : ℚ) := by
  obtain ⟨_, _, hdim, hw⟩ := h
  have hleaf := Nodes.allDim_leaves self._d self._bico.tree.root hdim
  have hdimp : ∀ proxy ∈ self._bico.tree.root.leaves.map (Bico.proxyOf self._bico.weightModifier),
      proxy.dimension = self._d := by
    intro proxy hmem
    rw [List.mem_map] at hmem
    obtain ⟨cf, hcf, rfl⟩ := hmem
    simp [Bico.proxyOf, PointWeightModifier.setWeight, Point.setWeight, Point.ofCoordinates,
      Point.dimension, ClusteringFeature.representative, hleaf cf hcf]
  obtain ⟨sw, pts, hrun, _, _, hin, _, _⟩ :=
    compute_run (Bico.engine thresholds) self
      (self._bico.tree.root.leaves.map (Bico.proxyOf self._bico.weightModifier)) []
      sample_weights points rfl hdimp (by rw [List.length_map]; exact hsw)
      (by rw [List.length_map]; exact hpts) hsize
  rw [List.length_map] at hrun
  refine ⟨_, sw, pts, hrun, rfl, ?_⟩
  have htake : sw.take self._bico.tree.root.leaves.length
      = self._bico.tree.root.leaves.map (fun cf => (cf.totalWeight : ℚ)) := by
    apply List.ext_getElem?
    intro i
    rw [List.getElem?_take, List.getElem?_map]
    by_cases hi : i < self._bico.tree.root.leaves.length
    · rw [if_pos hi]
      have hget : (self._bico.tree.root.leaves.map (Bico.proxyOf self._bico.weightModifier))[i]?
          = some (Bico.proxyOf self._bico.weightModifier (self._bico.tree.root.leaves[i])) := by
        rw [List.getElem?_map, List.getElem?_eq_getElem hi]
        rfl
      rw [(hin i _ hget).1, List.getElem?_eq_getElem hi]
      rfl
    · rw [if_neg hi, List.getElem?_eq_none (Nat.le_of_not_lt hi)]
      rfl
  rw [htake, ← hw, Nodes.weight_eq_sum, Nat.cast_list_sum, List.map_map]
  rfl

/-- Every engine object reached through the binding holds the points fed to
it. -/
theorem fed_holds (thresholds : Int → Nat → ℚ) (engine : BicoExternal Bico) (N : Nat)
    (h : Fed thresholds engine N) : engine.Holds N := by
  induction h with
  | created d k p m seed engine hinit => exact init_holds thresholds d k p m seed engine hinit
  | point engine next N array _ hstep ih =>
    obtain ⟨self1, hrun, _, h1⟩ := addPoint_holds thresholds engine N array ih
    rw [hrun] at hstep
    cases hstep
    exact h1
  | data engine next N array n _ hfit hstep ih =>
    obtain ⟨self1, hrun, _, h1⟩ := addData_holds thresholds engine N array n ih hfit
    rw [hrun] at hstep
    cases hstep
    exact h1

/-- Weight conservation on the modelled engine for every sequence of `addPoint`
and `addData` calls whose loop bounds do not wrap: after `N` points, the
solution has one proxy set, its proxies have dimension `_d`, and the weights
that `compute` writes into buffers of sufficient size sum to `N`. -/
theorem fed_weight_conserved (thresholds : Int → Nat → ℚ) (engine : BicoExternal Bico)
    (N : Nat) (sample_weights points : List ℚ) (h : Fed thresholds engine N)
    (hsw : engine._bico.tree.root.leaves.length ≤ sample_weights.length)
    (hpts : engine._bico.tree.root.leaves.length * engine._d ≤ points.length)
    (hsize : points.length < 18446744073709551616) :
    (∃ set0, ((Bico.engine thresholds).compute engine._bico).proxysets = [set0]
        ∧ set0.length = engine._bico.tree.root.leaves.length
        ∧ ∀ proxy ∈ set0, proxy.dimension = engine._d)
      ∧ ∃ s sw pts, BicoExternal.compute (Bico.engine thresholds) engine sample_weights points
          = .ok (s, sw, pts)
        ∧ s = engine._bico.tree.root.leaves.length
        ∧ (sw.take s).sum = (N : ℚ) := by
  have hh := fed_holds thresholds engine N h
  refine ⟨⟨_, rfl, List.length_map _ _, ?_⟩,
    compute_holds thresholds engine N sample_weights points hh hsw hpts hsize⟩
  intro proxy hmem
  rw [List.mem_map] at hmem
  obtain ⟨cf, hcf, rfl⟩ := hmem
  have hleaf := Nodes.allDim_leaves engine._d engine._bico.tree.root hh.2.2.1
  simp [Bico.proxyOf, PointWeightModifier.setWeight, Point.setWeight, Point.ofCoordinates,
    Point.dimension, ClusteringFeature.representative, hleaf cf hcf]

/-- Weight conservation on the modelled engine when the loop bound of `addData`
does not wrap: an engine object is created, `n` points are fed with one
`addData` call, and the weights that `compute` then writes sum to `n`. -/
theorem weight_conserved_without_wrap (thresholds : Int → Nat → ℚ) (d k p m : Nat)
    (seed : Int) (created : BicoExternal Bico) (array : Nat → ℚ) (n : Nat)
    (hinit : init (Bico.engine thresholds) d k p m seed = .ok created)
    (hfit : n * d < 4294967296) :
    ∃ fed, BicoExternal.addData (Bico.engine thresholds) created array n = .ok fed
      ∧ ∀ sample_weights points : List ℚ,
        fed._bico.tree.root.leaves.length ≤ sample_weights.length →
        fed._bico.tree.root.leaves.length * fed._d ≤ points.length →
        points.length < 18446744073709551616 →
        ∃ s sw pts, BicoExternal.compute (Bico.engine thresholds) fed sample_weights points
            = .ok (s, sw, pts)
          ∧ (sw.take s).sum = (n : ℚ) := by
  have h0 := init_holds thresholds d k p m seed created hinit
  have hd : created._d = d := by rw [init_ok thresholds d k p m seed created hinit]
  obtain ⟨fed, hrun, _, hfed⟩ :=
    addData_holds thresholds created 0 array n h0 (by rw [hd]; exact hfit)
  refine ⟨fed, hrun, ?_⟩
  intro sample_weights points hsw hpts hsize
  rw [Nat.zero_add] at hfed
  obtain ⟨s, sw, pts, hc, _, hsum⟩ :=
    compute_holds thresholds fed n sample_weights points hfed hsw hpts hsize
  exact ⟨s, sw, pts, hc, hsum⟩

/-- C3 (evaluation at the failing input): an engine of dimension 2 is created,
`addData` is called with `n = 2147483648` points, and `compute` follows.  The
wrapped loop bound keeps every point from the engine, so `compute` returns
`s = 0` and writes no weight: the weights sum to `0`, not to the number of
points fed. -/
theorem fed_weight_lost_at_wrapped_bound (thresholds : Int → Nat → ℚ) (array : Nat → ℚ)
    (sample_weights points : List ℚ) :
    ∃ created fed s sw pts,
      init (Bico.engine thresholds) 2 1 1 4 0 = .ok created
        ∧ BicoExternal.addData (Bico.engine thresholds) created array 2147483648 = .ok fed
        ∧ BicoExternal.compute (Bico.engine thresholds) fed sample_weights points
            = .ok (s, sw, pts)
        ∧ s = 0
        ∧ (sw.take s).sum = 0
        ∧ (sw.take s).sum ≠ ((2147483648 : Nat) : ℚ) := by
  have hstop : ¬ 0 < 2147483648
      * (⟨2, ⟨2, 1, 0, ⟨⟩, ⟨⟩, ⟨4, 1, thresholds 0, .nil⟩⟩⟩ : BicoExternal Bico)._d
        % 4294967296 := by
    show ¬ 0 < 2147483648 * 2 % 4294967296
    decide
  refine ⟨⟨2, ⟨2, 1, 0, ⟨⟩, ⟨⟩, ⟨4, 1, thresholds 0, .nil⟩⟩⟩,
    ⟨2, ⟨2, 1, 0, ⟨⟩, ⟨⟩, ⟨4, 1, thresholds 0, .nil⟩⟩⟩, 0, sample_weights, points,
    rfl, ?_, rfl, rfl, ?_, ?_⟩
  · unfold BicoExternal.addData
    rw [BicoExternal.addDataLoop, dif_neg hstop]
  · simp
  · simp


end WeightConservation
